import Mathlib

/-!
Verification development for the `wb_best_parser` repository.

The Python sources are shallowly embedded as executable Lean definitions:

* `src/wb_best_parser/filters.py`  → `OfferFilter` and its scoring function
  (the two regular expressions `price_pattern` and `discount_pattern` are
  implemented directly as backtracking matchers with Python `re` semantics
  restricted to the character classes the patterns use);
* `src/wb_best_parser/dedup.py`    → `DedupStore` with `contains`, `add`,
  `remove`, `flush`, load-on-construction and the text fingerprint
  normalisation (the SHA-256 digest itself is abstracted as an opaque
  parameter `h : String → String`, everything around it is concrete);
* `src/wb_best_parser/app.py`      → `processMessage` (the per-item state
  machine including the duplicate gate, reservation, dry-run, publish and
  rollback), a cooperative-interleaving race model for the guarded
  check-then-insert section, and `backfillDispatch` (the per-source
  backfill ordering logic of `process_backfill`).

The Python file at `DedupStore.path` is modelled as the `persisted` field,
an `Option (List String)` of raw lines (`none` = missing file); `flush`
overwrites it with the in-memory sequence exactly as
`path.write_text("\n".join(items))` does.
-/

/-! ## Character helpers (Python `str` / `re` character classes) -/

/-- Whitespace characters recognised by Python's `\s` and `str.strip()`
(restricted to the ASCII whitespace actually relevant to the inputs). -/
def isPySpace (c : Char) : Bool :=
  c = ' ' || c = '\t' || c = '\n' || c = '\r' || c = '\x0b' || c = '\x0c'

/-- ASCII decimal digit, Python's `\d` on the inputs in question. -/
def isDigitC (c : Char) : Bool :=
  '0' ≤ c && c ≤ '9'

/-- Python's case folding `str.lower()` on ASCII letters and the Cyrillic
range actually used by the source (`А`–`Я` and `Ё`). -/
def pyLower (c : Char) : Char :=
  let n := c.toNat
  if 65 ≤ n ∧ n ≤ 90 then Char.ofNat (n + 32)
  else if 0x410 ≤ n ∧ n ≤ 0x42F then Char.ofNat (n + 0x20)
  else if n = 0x401 then Char.ofNat 0x451
  else c

/-- Python's `\w` (word character): ASCII letters, digits, underscore and
the Cyrillic letters used by the source texts. -/
def isPyWord (c : Char) : Bool :=
  isDigitC c || ('a' ≤ c && c ≤ 'z') || ('A' ≤ c && c ≤ 'Z') || c = '_' ||
    (0x410 ≤ c.toNat && c.toNat ≤ 0x44F) || c.toNat = 0x401 || c.toNat = 0x451

/-- `str.lower()` lifted to strings. -/
def pyLowerStr (s : String) : String :=
  String.mk (s.data.map pyLower)

/-- Python `str.strip()`: drop leading and trailing whitespace. -/
def pyStrip (s : String) : String :=
  String.mk (((s.data.dropWhile isPySpace).reverse.dropWhile isPySpace).reverse)

/-- Does `hay` start with `needle` (used for substring containment)? -/
def startsL : List Char → List Char → Bool
  | [], _ => true
  | _ :: _, [] => false
  | a :: as, b :: bs => a = b && startsL as bs

/-- Occurrence of `needle` anywhere in `hay`: Python's `needle in hay`. -/
def hasSubAux (needle : List Char) : List Char → Bool
  | [] => startsL needle []
  | c :: rest => startsL needle (c :: rest) || hasSubAux needle rest

/-- Python substring containment `needle in hay` on strings. -/
def strHasSub (hay needle : String) : Bool :=
  hasSubAux needle.data hay.data

/-! ## Backtracking matchers for the two regexes of `filters.py`

`price_pattern = (?:^|\D)(\d{2,7})\s?(?:₽|руб|р|RUB)(?:\D|$)` (IGNORECASE)
`discount_pattern = (?:-|скидк\w*\s*)(\d{1,2})\s?%` (IGNORECASE)

Alternatives and greedy quantifiers are tried in Python `re` order
(leftmost alternative first, longest repetition first), with full
backtracking, and `findall`/`search` scan positions left to right. -/

/-- Try each element in order, return the first `some`. -/
def firstSome : List α → (α → Option β) → Option β
  | [], _ => none
  | a :: as, f =>
    match f a with
    | some b => some b
    | none => firstSome as f

/-- Repetition counts `n, n-1, …, lo` for a greedy bounded quantifier. -/
def countsDesc (lo n : Nat) : List Nat :=
  ((List.range (n + 1)).filter (fun k => lo ≤ k)).reverse

/-- Numeric value of a digit list. -/
def digitsToNat (ds : List Char) : Nat :=
  ds.foldl (fun a c => 10 * a + (c.toNat - 48)) 0

/-- Consume a literal (already lowercase) case-insensitively. -/
def matchLit : List Char → List Char → Option (List Char)
  | [], l => some l
  | _ :: _, [] => none
  | c :: cs, x :: xs => if pyLower x = c then matchLit cs xs else none

/-- The currency alternatives of `price_pattern`, in source order. -/
def currencyAlts : List (List Char) :=
  [['₽'], ['р', 'у', 'б'], ['р'], ['r', 'u', 'b']]

/-- `(?:\D|$)` : a non-digit character (consumed) or end of input. -/
def matchNonDigitOrEnd : List Char → Option (List Char)
  | [] => some []
  | x :: xs => if isDigitC x then none else some xs

/-- `\s?` (greedy) then a currency alternative then `(?:\D|$)`. -/
def afterDigits (l : List Char) : Option (List Char) :=
  let cands : List (List Char) :=
    match l with
    | x :: xs => if isPySpace x then [xs, l] else [l]
    | [] => [l]
  firstSome cands fun l1 =>
    firstSome currencyAlts fun alt =>
      (matchLit alt l1).bind matchNonDigitOrEnd

/-- `(\d{2,7})\s?(?:₽|руб|р|RUB)(?:\D|$)` at the current position; returns
the captured amount and the rest of the input after the whole match. -/
def tryDigitCounts (l : List Char) : Option (Nat × List Char) :=
  let avail := min 7 ((l.takeWhile isDigitC).length)
  firstSome (countsDesc 2 avail) fun k =>
    (afterDigits (l.drop k)).map fun rest => (digitsToNat (l.take k), rest)

/-- Whole `price_pattern` at one position (`atStart` = position 0, where
`^` may match; otherwise only the `\D` alternative applies). -/
def tryPriceAt (atStart : Bool) (l : List Char) : Option (Nat × List Char) :=
  let viaCaret : Option (Nat × List Char) :=
    if atStart then tryDigitCounts l else none
  match viaCaret with
  | some r => some r
  | none =>
    match l with
    | x :: xs => if isDigitC x then none else tryDigitCounts xs
    | [] => none

/-- `re.findall` scan for `price_pattern`: try each position left to
right, resume after the end of every match (fueled by input length). -/
def goPrices : Nat → Bool → List Char → List Nat
  | 0, _, _ => []
  | fuel + 1, atStart, l =>
    match tryPriceAt atStart l with
    | some (p, rest) => p :: goPrices fuel false rest
    | none =>
      match l with
      | [] => []
      | _ :: t => goPrices fuel false t

/-- `[int(raw) for raw in price_pattern.findall(text)]`. -/
def findPrices (text : String) : List Nat :=
  goPrices text.data.length true text.data

/-- `(\d{1,2})\s?%` at the current position; returns the captured value. -/
def tryDiscountBody (l : List Char) : Option Nat :=
  let avail := min 2 ((l.takeWhile isDigitC).length)
  firstSome (countsDesc 1 avail) fun k =>
    let cands : List (List Char) :=
      match l.drop k with
      | x :: xs => if isPySpace x then [xs, l.drop k] else [l.drop k]
      | [] => [l.drop k]
    firstSome cands fun l1 =>
      match l1 with
      | '%' :: _ => some (digitsToNat (l.take k))
      | _ => none

/-- Whole `discount_pattern` at one position: `(?:-|скидк\w*\s*)` then the
captured percentage. -/
def tryDiscountAt (l : List Char) : Option Nat :=
  let viaDash : Option Nat :=
    match l with
    | '-' :: xs => tryDiscountBody xs
    | _ => none
  match viaDash with
  | some d => some d
  | none =>
    (matchLit ['с', 'к', 'и', 'д', 'к'] l).bind fun r1 =>
      firstSome (countsDesc 0 ((r1.takeWhile isPyWord).length)) fun w =>
        let r2 := r1.drop w
        firstSome (countsDesc 0 ((r2.takeWhile isPySpace).length)) fun sN =>
          tryDiscountBody (r2.drop sN)

/-- `re.search` scan for `discount_pattern` (first match wins). -/
def goDiscount : Nat → List Char → Option Nat
  | 0, _ => none
  | fuel + 1, l =>
    match tryDiscountAt l with
    | some d => some d
    | none =>
      match l with
      | [] => none
      | _ :: t => goDiscount fuel t

/-- `discount_pattern.search(text)`, returning group 1 as a number. -/
def searchDiscount (text : String) : Option Nat :=
  goDiscount text.data.length text.data

/-! ## `filters.py`: `MatchResult` and `OfferFilter` -/

/-- `MatchResult` dataclass of `filters.py`. -/
structure MatchResult where
  interesting : Bool
  score : Nat
  reasons : List String
deriving DecidableEq, Repr

/-- `OfferFilter` with keywords already lowercased by `__init__`. -/
structure OfferFilter where
  includeKeywords : List String
  excludeKeywords : List String
  minScore : Int
deriving Repr

/-- `OfferFilter.__init__`: lowercases both keyword lists. -/
def OfferFilter.create (inc exc : List String) (minScore : Int) : OfferFilter :=
  ⟨inc.map pyLowerStr, exc.map pyLowerStr, minScore⟩

/-- `",".join(sorted(set(matched_include)))`. -/
def sortedDistinct (l : List String) : List String :=
  l.dedup.mergeSort (fun a b => a ≤ b)

/-- Score/reason accumulation of `OfferFilter.match` (filters.py lines
39-69), i.e. everything after the exclude-keyword short-circuit. -/
def OfferFilter.scoreParts (f : OfferFilter) (text : String) : Nat × List String :=
  let normalized := pyLowerStr text
  let matchedInclude := f.includeKeywords.filter (fun k => strHasSub normalized k)
  let sr1 : Nat × List String :=
    if matchedInclude = [] then (0, [])
    else (1, ["include_keywords:" ++ String.intercalate "," (sortedDistinct matchedInclude)])
  let sr2 : Nat × List String :=
    match findPrices text with
    | [] => sr1
    | p :: ps =>
      let minPrice := ps.foldl Nat.min p
      if 500 ≤ minPrice then (sr1.1 + 1, sr1.2 ++ ["low_price:" ++ toString minPrice])
      else if minPrice ≤ 1000 then (sr1.1 + 2, sr1.2 ++ ["mid_price:" ++ toString minPrice])
      else if minPrice ≤ 2000 then (sr1.1 + 3, sr1.2 ++ ["mid_price:" ++ toString minPrice])
      else (sr1.1 + 4, sr1.2)
  match searchDiscount text with
  | none => sr2
  | some d =>
    if d ≤ 50 then (sr2.1 + 1, sr2.2 ++ ["big_discount:" ++ toString d])
    else if d ≤ 80 then (sr2.1 + 2, sr2.2 ++ ["discount:" ++ toString d])
    else (sr2.1 + 3, sr2.2)

/-- `OfferFilter.match` (named `matchText` because `match` is a Lean
keyword).  `text=None` behaves exactly like the empty string (`if not
text`), so the argument is a plain `String`. -/
def OfferFilter.matchText (f : OfferFilter) (text : String) : MatchResult :=
  if text = "" then ⟨false, 0, ["empty_text"]⟩
  else
    let normalized := pyLowerStr text
    if f.excludeKeywords.any (fun k => strHasSub normalized k) then
      ⟨false, 0, ["exclude_keyword"]⟩
    else
      let sr := f.scoreParts text
      ⟨decide ((sr.1 : Int) ≥ f.minScore), sr.1, sr.2⟩

/-! ## `dedup.py`: `DedupStore`

The Python `set` is modelled as a duplicate-free `List String` used only
through membership (`pysetInsert` is `set.add`, `List.filter (· != k)` is
`set.discard`); the `deque` is `items`; the file at `self.path` is the
`persisted` field (`none` = file absent). -/

/-- In-memory and persisted state of `DedupStore`. -/
structure DedupStore where
  maxItems : Nat
  items : List String
  dset : List String
  dirty : Nat
  persisted : Option (List String)
deriving DecidableEq, Repr

/-- `set.add(v)`: no-op when present. -/
def pysetInsert (v : String) (s : List String) : List String :=
  if v ∈ s then s else v :: s

/-- `DedupStore.contains`. -/
def DedupStore.contains (s : DedupStore) (key : String) : Bool :=
  decide (key ∈ s.dset)

/-- `DedupStore.flush`: rewrite the file with the in-memory sequence and
clear the dirty counter. -/
def DedupStore.flush (s : DedupStore) : DedupStore :=
  { s with persisted := some s.items, dirty := 0 }

/-- The `while len(items) > max_items: removed = items.popleft();
set.discard(removed)` loop inside `DedupStore.add`. -/
def evictLoop (maxItems : Nat) : List String → List String → List String × List String
  | [], dset => ([], dset)
  | removed :: rest, dset =>
    if maxItems < (removed :: rest).length then
      evictLoop maxItems rest (dset.filter (· != removed))
    else (removed :: rest, dset)

/-- `if self._dirty >= 25: self.flush()` at the end of `DedupStore.add`. -/
def DedupStore.maybeFlush (s : DedupStore) : DedupStore :=
  if 25 ≤ s.dirty then s.flush else s

/-- `DedupStore.add` including the eviction loop and the automatic flush
once the dirty counter reaches 25. -/
def DedupStore.add (s : DedupStore) (key : String) : DedupStore :=
  if key ∈ s.dset then s
  else
    DedupStore.maybeFlush
      { s with
        items := (evictLoop s.maxItems (s.items ++ [key]) (pysetInsert key s.dset)).1,
        dset := (evictLoop s.maxItems (s.items ++ [key]) (pysetInsert key s.dset)).2,
        dirty := s.dirty + 1 }

/-- `DedupStore.remove`: no-op when absent, else drop from set and
sequence (order of survivors preserved) and mark dirty. -/
def DedupStore.remove (s : DedupStore) (key : String) : DedupStore :=
  if key ∈ s.dset then
    { s with dset := s.dset.filter (· != key),
             items := s.items.filter (· != key),
             dirty := s.dirty + 1 }
  else s

/-- Python's `lines[-k:]` slice on a list (for `k = 0` the slice `[-0:]`
is `[0:]`, i.e. the whole list). -/
def pythonLastSlice (k : Nat) (l : List α) : List α :=
  if k = 0 then l else l.drop (l.length - k)

/-- One iteration of the `for value in lines[-max_items:]` loop of
`DedupStore._load`: skip blank values, append the rest to both views. -/
def loadStep (st : DedupStore) (v : String) : DedupStore :=
  if v = "" then st
  else { st with items := st.items ++ [v], dset := pysetInsert v st.dset }

/-- `DedupStore.__init__` + `_load`: an absent file yields an empty store;
otherwise the last `max_items` stripped lines are loaded in file order. -/
def loadStore (file : Option (List String)) (maxItems : Nat) : DedupStore :=
  match file with
  | none => ⟨maxItems, [], [], 0, none⟩
  | some lines =>
    (pythonLastSlice maxItems (lines.map pyStrip)).foldl loadStep
      ⟨maxItems, [], [], 0, some lines⟩

/-- Normalisation inside `DedupStore.fingerprint`:
`re.sub(r"\s+", " ", text).strip().lower()` (whitespace runs collapsed to
one space by `collapseGo`, then stripped, then lowercased). -/
def collapseGo : Bool → List Char → List Char
  | _, [] => []
  | prevWS, c :: rest =>
    if isPySpace c then
      if prevWS then collapseGo true rest else ' ' :: collapseGo true rest
    else c :: collapseGo false rest

/-- The normalised text whose digest `DedupStore.fingerprint` returns. -/
def pyNormalize (text : String) : String :=
  pyLowerStr (pyStrip (String.mk (collapseGo false text.data)))

/-- `DedupStore.fingerprint`, with the SHA-256 hex digest abstracted as an
opaque digest function `h` (the normalisation around it is concrete). -/
def DedupStore.fingerprint (h : String → String) (text : String) : Option String :=
  let n := pyNormalize text
  if n = "" then none else some (h n)

/-! ## `app.py`: the per-item pipeline `process_message` -/

/-- The configuration bits `process_message` consults that actually exist
on `config.py`'s `Settings`: `dry_run`, and whether `openai_gateway` was
constructed (`rewrite_with_ai` and a non-empty API key).  There is NO
`dedup_media` field on `Settings` (and `extra="ignore"` discards any such
environment entry), so the attribute access `settings.dedup_media` at
app.py line 168 raises `AttributeError` — see `ProcOutcome.mediaCrash`. -/
structure PipeSettings where
  dryRun : Bool
  rewriteEnabled : Bool
deriving DecidableEq, Repr

/-- One inbound message as `process_message` observes it: its text
(`message.message or ""`), whether it has media, and whether
`download_media` returned a file path (`isinstance(downloaded, str)`). -/
structure InMsg where
  text : String
  hasMedia : Bool
  downloadOk : Bool
deriving DecidableEq, Repr

/-- Terminal outcome of one `process_message` call.  `mediaCrash` is the
uncaught `AttributeError` raised at the attribute access
`settings.dedup_media` (app.py line 168): `config.py`'s `Settings`
defines no `dedup_media` field, the access sits OUTSIDE the
`try/except OSError` block, and it is reached for every media message
whose download returned a path — so the later
`DedupStore.fingerprint_bytes` call (line 171, itself also undefined in
`dedup.py`) is never executed. -/
inductive ProcOutcome
  | rejected
  | mediaCrash
  | duplicate (key : String)
  | dryRunDone
  | published
  | publishFailed
deriving DecidableEq, Repr

/-- Result of one `process_message` call: outcome, final store state, the
computed `dedup_keys` and the `reserved_keys`. -/
structure ProcResult where
  outcome : ProcOutcome
  store : DedupStore
  gateKeys : List String
  reservedKeys : List String
deriving DecidableEq, Repr

/-- `app.py` lines 196-199: insert every key under the lock, then flush
synchronously before releasing it. -/
def reserveKeys (s : DedupStore) (keys : List String) : DedupStore :=
  (keys.foldl DedupStore.add s).flush

/-- `app.py` lines 211-214: remove every reserved key, then flush. -/
def rollbackKeys (s : DedupStore) (keys : List String) : DedupStore :=
  (keys.foldl DedupStore.remove s).flush

/-- `process_message` (app.py lines 147-228) as a function of the store.
`rewriteFn` models `openai_gateway.rewrite_offer` (an arbitrary
total text transformer: the gateway fails open), `hashFn` the SHA-256
digest, and `publishOk` whether `publish_message` raises.  In the media
block (lines 163-174), any message with media whose download returned a
path hits `settings.dedup_media` and raises (see `ProcOutcome.mediaCrash`);
when the download returned something else, the block is skipped entirely
and the item continues with no media fingerprint. -/
def processMessage (st : PipeSettings) (filt : OfferFilter)
    (rewriteFn hashFn : String → String) (publishOk : Bool)
    (msg : InMsg) (store : DedupStore) : ProcResult :=
  let result := filt.matchText msg.text
  if result.interesting = false then ⟨.rejected, store, [], []⟩
  else
    let composed0 := pyStrip msg.text
    let composed :=
      if st.rewriteEnabled = true ∧ composed0 ≠ "" then rewriteFn composed0
      else composed0
    let textFp := DedupStore.fingerprint hashFn composed
    if msg.hasMedia = true ∧ msg.downloadOk = true then
      ⟨.mediaCrash, store, [], []⟩
    else
      let mediaFp : Option String := none
      let dedupKeys := (textFp.map (fun f => "txt:" ++ f)).toList ++ mediaFp.toList
      let finishUp : DedupStore → List String → ProcResult := fun store1 reserved =>
        if st.dryRun = true then ⟨.dryRunDone, store1, dedupKeys, reserved⟩
        else if publishOk then ⟨.published, store1, dedupKeys, reserved⟩
        else
          ⟨.publishFailed,
            (if reserved = [] then store1 else rollbackKeys store1 reserved),
            dedupKeys, reserved⟩
      if dedupKeys = [] then finishUp store []
      else
        match dedupKeys.find? (fun k => store.contains k) with
        | some dupKey => ⟨.duplicate dupKey, store, dedupKeys, []⟩
        | none => finishUp (reserveKeys store dedupKeys) dedupKeys

/-! ## Cooperative-interleaving model of the duplicate gate

asyncio interleaves tasks only at `await` points, and the body of
`async with dedup_lock:` in `process_message` contains no `await`
(`contains`, `add` and `flush` are synchronous), so the whole
check-then-insert-then-flush section executes atomically with respect to
every other task; the lock additionally serialises it.  A run of `n`
concurrently launched items that all resolved to the same fingerprint
key `k` is therefore modelled as: each task's gate is one atomic step,
and a schedule is an arbitrary list of task activations (repetitions and
out-of-range indices allowed). -/

/-- Where one task stands: before its gate, past the gate (it will reach
the publish call), or stopped in the duplicate branch. -/
inductive TaskPC
  | pending
  | passedGate
  | dupSkipped
deriving DecidableEq, Repr

/-- Shared store plus the program counter of every task. -/
structure RaceConfig where
  store : DedupStore
  tasks : List TaskPC
deriving DecidableEq, Repr

/-- One scheduler activation of task `i`: a pending task atomically runs
the guarded section of `process_message` (lines 184-199) for key `k`;
every other activation is a no-op. -/
def raceStep (k : String) (c : RaceConfig) (i : Nat) : RaceConfig :=
  match c.tasks.get? i with
  | some TaskPC.pending =>
    if c.store.contains k then { c with tasks := c.tasks.set i TaskPC.dupSkipped }
    else { store := (c.store.add k).flush, tasks := c.tasks.set i TaskPC.passedGate }
  | _ => c

/-- Run a whole schedule. -/
def runRace (k : String) (c : RaceConfig) (sched : List Nat) : RaceConfig :=
  sched.foldl (raceStep k) c

/-- Number of tasks that passed the gate (and hence attempt a publish). -/
def countPassed (ts : List TaskPC) : Nat :=
  ts.countP (fun t => decide (t = TaskPC.passedGate))

/-! ## `app.py`: backfill ordering (`process_backfill`, lines 237-265) -/

/-- One historical message as the backfill loop sees it: Telethon's
`iter_messages` yields them newest-first; `date` is `None` for service
entries (modelled as an integer timestamp). -/
structure HistMsg where
  mid : Nat
  date : Option Int
deriving DecidableEq, Repr

/-- The collection loop: skip date-less messages (`continue`), stop at
the first message older than the window (`break`), keep the rest. -/
def collectRecent (since : Int) : List HistMsg → List HistMsg
  | [] => []
  | m :: rest =>
    match m.date with
    | none => collectRecent since rest
    | some d => if d < since then [] else m :: collectRecent since rest

/-- `for msg in reversed(recent_messages): await process_message(...)`:
the order in which backfilled items are dispatched to the processor. -/
def backfillDispatch (since : Int) (history : List HistMsg) : List HistMsg :=
  (collectRecent since history).reverse

/-! ## Store well-formedness (the §3 invariant of the spec)

`StoreWF` is the "set and sequence agree, no duplicates" invariant: it is
what claims C1/C2/C9 need and what `DedupStore` maintains. -/

/-- The in-memory set and ordered sequence agree and hold no duplicates. -/
def StoreWF (s : DedupStore) : Prop :=
  (∀ x ∈ s.dset, x ∈ s.items) ∧ (∀ x ∈ s.items, x ∈ s.dset) ∧ s.items.Nodup

instance : DecidablePred StoreWF := fun s => by
  unfold StoreWF; infer_instance

/-! ## Lemmas about `DedupStore` -/

@[simp] theorem DedupStore.flush_items (s : DedupStore) : s.flush.items = s.items := rfl

@[simp] theorem DedupStore.flush_dset (s : DedupStore) : s.flush.dset = s.dset := rfl

@[simp] theorem DedupStore.flush_maxItems (s : DedupStore) : s.flush.maxItems = s.maxItems := rfl

/-- The eviction loop returns the suffix of length `min maxItems length`. -/
theorem evictLoop_items (m : Nat) (l d : List String) :
    (evictLoop m l d).1 = l.drop (l.length - m) := by
  induction l generalizing d with
  | nil => simp [evictLoop]
  | cons a t ih =>
    by_cases h : m < (a :: t).length
    · rw [evictLoop, if_pos h, ih]
      have h1 : (a :: t).length - m = (t.length - m) + 1 := by
        simp only [List.length_cons] at h ⊢; omega
      rw [h1, List.drop_succ_cons]
    · rw [evictLoop, if_neg h]
      have h1 : t.length + 1 - m = 0 := by
        simp only [List.length_cons] at h; omega
      simp [h1]

/-- When the sequence already fits, the eviction loop is the identity. -/
theorem evictLoop_eq_self (m : Nat) (l d : List String) (h : l.length ≤ m) :
    evictLoop m l d = (l, d) := by
  cases l with
  | nil => rfl
  | cons a t => rw [evictLoop, if_neg (by omega)]

/-- The eviction loop keeps the set in agreement with the sequence. -/
theorem evictLoop_agree (m : Nat) (l d : List String)
    (hagree : ∀ x, x ∈ d ↔ x ∈ l) (hnd : l.Nodup) :
    (∀ x, x ∈ (evictLoop m l d).2 ↔ x ∈ (evictLoop m l d).1) ∧
      (evictLoop m l d).1.Nodup := by
  induction l generalizing d with
  | nil =>
    simpa [evictLoop] using hagree
  | cons a t ih =>
    by_cases h : m < (a :: t).length
    · rw [evictLoop, if_pos h]
      have hna : a ∉ t := (List.nodup_cons.mp hnd).1
      refine ih (d.filter (· != a)) ?_ (List.nodup_cons.mp hnd).2
      intro x
      simp only [List.mem_filter, bne_iff_ne, ne_eq, decide_eq_true_eq, hagree x,
        List.mem_cons]
      constructor
      · rintro ⟨hx | hx, hne⟩
        · exact absurd hx hne
        · exact hx
      · intro hx
        exact ⟨Or.inr hx, fun he => hna (he ▸ hx)⟩
    · rw [evictLoop, if_neg h]
      exact ⟨hagree, hnd⟩

@[simp] theorem DedupStore.maybeFlush_items (s : DedupStore) :
    s.maybeFlush.items = s.items := by
  unfold DedupStore.maybeFlush; split <;> rfl

@[simp] theorem DedupStore.maybeFlush_dset (s : DedupStore) :
    s.maybeFlush.dset = s.dset := by
  unfold DedupStore.maybeFlush; split <;> rfl

@[simp] theorem DedupStore.maybeFlush_maxItems (s : DedupStore) :
    s.maybeFlush.maxItems = s.maxItems := by
  unfold DedupStore.maybeFlush; split <;> rfl

/-- `add` never changes the capacity. -/
@[simp] theorem DedupStore.add_maxItems (s : DedupStore) (key : String) :
    (s.add key).maxItems = s.maxItems := by
  unfold DedupStore.add
  split
  · rfl
  · rw [DedupStore.maybeFlush_maxItems]

/-- `add` of a present key is a no-op (idempotence). -/
theorem DedupStore.add_noop (s : DedupStore) (key : String) (h : key ∈ s.dset) :
    s.add key = s := by
  unfold DedupStore.add; rw [if_pos h]

/-- `add` of a fresh key: sequence and set after the eviction loop. -/
theorem DedupStore.add_fresh (s : DedupStore) (key : String) (h : key ∉ s.dset) :
    (s.add key).items =
      (s.items ++ [key]).drop ((s.items ++ [key]).length - s.maxItems) ∧
    (s.add key).dset =
      (evictLoop s.maxItems (s.items ++ [key]) (key :: s.dset)).2 := by
  unfold DedupStore.add
  rw [if_neg h]
  have hins : pysetInsert key s.dset = key :: s.dset := by
    unfold pysetInsert; rw [if_neg h]
  rw [hins, DedupStore.maybeFlush_items, DedupStore.maybeFlush_dset]
  exact ⟨evictLoop_items _ _ _, rfl⟩

/-- `add` keeps the sequence within capacity when it was within it. -/
theorem DedupStore.add_length_le (s : DedupStore) (key : String)
    (h : s.items.length ≤ s.maxItems) : (s.add key).items.length ≤ s.maxItems := by
  by_cases hk : key ∈ s.dset
  · rw [s.add_noop key hk]; exact h
  · rw [(s.add_fresh key hk).1, List.length_drop]
    omega

/-- `add` preserves well-formedness. -/
theorem DedupStore.add_WF (s : DedupStore) (key : String) (h : StoreWF s) :
    StoreWF (s.add key) := by
  by_cases hk : key ∈ s.dset
  · rw [s.add_noop key hk]; exact h
  · obtain ⟨h1, h2, h3⟩ := h
    have hki : key ∉ s.items := fun hx => hk (h2 key hx)
    have hagree : ∀ x, x ∈ key :: s.dset ↔ x ∈ s.items ++ [key] := by
      intro x
      simp only [List.mem_cons, List.mem_append, List.mem_singleton,
        List.not_mem_nil, or_false]
      constructor
      · rintro (hx | hx)
        · exact Or.inr hx
        · exact Or.inl (h1 x hx)
      · rintro (hx | hx)
        · exact Or.inr (h2 x hx)
        · exact Or.inl hx
    have hnd : (s.items ++ [key]).Nodup := by
      rw [List.nodup_append]
      exact ⟨h3, List.nodup_singleton key, by
        intro x hx
        simp only [List.mem_singleton]
        intro he; exact hki (he ▸ hx)⟩
    obtain ⟨ha, hn⟩ := evictLoop_agree s.maxItems (s.items ++ [key]) (key :: s.dset)
      hagree hnd
    obtain ⟨hi, hd⟩ := s.add_fresh key hk
    have hev : (s.add key).items = (evictLoop s.maxItems (s.items ++ [key]) (key :: s.dset)).1 := by
      rw [hi, evictLoop_items]
    refine ⟨?_, ?_, ?_⟩
    · intro x hx
      rw [hev]; exact (ha x).mp (hd ▸ hx)
    · intro x hx
      rw [hd]; exact (ha x).mpr (hev ▸ hx)
    · rw [hev]; exact hn

/-- After removal the key is gone, unconditionally. -/
theorem DedupStore.remove_contains_self (s : DedupStore) (key : String) :
    (s.remove key).contains key = false := by
  unfold DedupStore.remove DedupStore.contains
  split
  · simp
  · next h => simp [h]

/-- `remove` adds no members to the set. -/
theorem DedupStore.remove_not_mem (s : DedupStore) (key x : String)
    (h : x ∉ s.dset) : x ∉ (s.remove key).dset := by
  unfold DedupStore.remove
  split
  · intro hx
    exact h (List.mem_of_mem_filter hx)
  · exact h

/-- `remove` preserves well-formedness. -/
theorem DedupStore.remove_WF (s : DedupStore) (key : String) (h : StoreWF s) :
    StoreWF (s.remove key) := by
  obtain ⟨h1, h2, h3⟩ := h
  unfold DedupStore.remove
  split
  · refine ⟨?_, ?_, List.Nodup.filter _ h3⟩
    · intro x hx
      simp only [List.mem_filter, bne_iff_ne, ne_eq, decide_eq_true_eq] at hx ⊢
      exact ⟨h1 x hx.1, hx.2⟩
    · intro x hx
      simp only [List.mem_filter, bne_iff_ne, ne_eq, decide_eq_true_eq] at hx ⊢
      exact ⟨h2 x hx.1, hx.2⟩
  · exact ⟨h1, h2, h3⟩

/-- With a well-formed store, `remove` is plain filtering on both views
(also when the key is absent, where it is a no-op). -/
theorem DedupStore.remove_char (s : DedupStore) (key : String) (h : StoreWF s) :
    (s.remove key).items = s.items.filter (· != key) ∧
      (s.remove key).dset = s.dset.filter (· != key) := by
  obtain ⟨h1, h2, _⟩ := h
  unfold DedupStore.remove
  split
  · exact ⟨rfl, rfl⟩
  · next hk =>
    have hi : s.items.filter (· != key) = s.items :=
      List.filter_eq_self.mpr (by
        intro x hx
        simp only [bne_iff_ne, ne_eq, decide_eq_true_eq]
        intro he; exact hk (he ▸ h2 x hx))
    have hd : s.dset.filter (· != key) = s.dset :=
      List.filter_eq_self.mpr (by
        intro x hx
        simp only [bne_iff_ne, ne_eq, decide_eq_true_eq]
        intro he; exact hk (he ▸ hx))
    exact ⟨hi.symm, hd.symm⟩

/-- Eviction pops only from the front: a key sitting at the back of the
sequence (and in the set, and nowhere earlier) survives whenever the
capacity is at least 1. -/
theorem evictLoop_keeps_last (m : Nat) (k : String) (l d : List String)
    (hm : 1 ≤ m) (hd : k ∈ d) (hl : k ∉ l) :
    k ∈ (evictLoop m (l ++ [k]) d).2 := by
  induction l generalizing d with
  | nil =>
    rw [List.nil_append, evictLoop, if_neg (by simp; omega)]
    exact hd
  | cons a t ih =>
    rw [List.cons_append]
    by_cases h : m < (a :: (t ++ [k])).length
    · rw [evictLoop, if_pos h]
      refine ih (d.filter (· != a)) ?_ (fun hx => hl (List.mem_cons_of_mem a hx))
      simp only [List.mem_filter, bne_iff_ne, ne_eq, decide_eq_true_eq]
      exact ⟨hd, fun he => hl (he ▸ List.mem_cons_self a t)⟩
    · rw [evictLoop, if_neg h]
      exact hd

/-- After a guarded reservation of a fresh key in a well-formed store of
capacity at least 1, the key is present (the heart of the at-most-once
argument: the gate of every later task sees it). -/
theorem contains_flush_add_self (s : DedupStore) (k : String)
    (hWF : StoreWF s) (hm : 1 ≤ s.maxItems) :
    ((s.add k).flush).contains k = true := by
  rw [DedupStore.contains, decide_eq_true_eq, DedupStore.flush_dset]
  by_cases hk : k ∈ s.dset
  · rw [s.add_noop k hk]; exact hk
  · rw [(s.add_fresh k hk).2]
    exact evictLoop_keeps_last s.maxItems k s.items (k :: s.dset) hm
      (List.mem_cons_self k s.dset) (fun hx => hk (hWF.2.1 k hx))

/-- Once a key is out of the set, later removals never bring it back. -/
theorem foldl_remove_not_mem (keys : List String) (s : DedupStore) (k : String)
    (h : k ∉ s.dset) : k ∉ (keys.foldl DedupStore.remove s).dset := by
  induction keys generalizing s with
  | nil => exact h
  | cons a t ih => exact ih (s.remove a) (s.remove_not_mem a k h)

/-- `remove` for every reserved key leaves none of them in the store,
whatever the store held and however the keys overlap. -/
theorem foldl_remove_contains (keys : List String) (s : DedupStore) (k : String)
    (hk : k ∈ keys) : (keys.foldl DedupStore.remove s).contains k = false := by
  induction keys generalizing s with
  | nil => cases hk
  | cons a t ih =>
    rcases List.mem_cons.mp hk with he | ht
    · subst he
      by_cases hmem : k ∈ t
      · exact ih (s.remove k) hmem
      · have h1 : k ∉ (s.remove k).dset := by
          have := s.remove_contains_self k
          rw [DedupStore.contains] at this
          simpa using this
        simp only [List.foldl_cons, DedupStore.contains, decide_eq_true_eq,
          decide_eq_false_iff_not]
        exact foldl_remove_not_mem t (s.remove k) k h1
    · exact ih (s.remove a) ht

/-- Reservation without eviction: when the keys are fresh, distinct, and
fit into the remaining capacity, the adds append them to the sequence and
push them (reversed) onto the set. -/
theorem reserve_char (s : DedupStore) (keys : List String)
    (hWF : StoreWF s) (hnd : keys.Nodup) (hfresh : ∀ k ∈ keys, k ∉ s.dset)
    (hcap : s.items.length + keys.length ≤ s.maxItems) :
    (reserveKeys s keys).items = s.items ++ keys ∧
      (reserveKeys s keys).dset = keys.reverse ++ s.dset ∧
      (reserveKeys s keys).maxItems = s.maxItems ∧
      StoreWF (reserveKeys s keys) := by
  have main : ∀ (ks : List String) (t : DedupStore), StoreWF t → ks.Nodup →
      (∀ k ∈ ks, k ∉ t.dset) → t.items.length + ks.length ≤ t.maxItems →
      (ks.foldl DedupStore.add t).items = t.items ++ ks ∧
        (ks.foldl DedupStore.add t).dset = ks.reverse ++ t.dset ∧
        (ks.foldl DedupStore.add t).maxItems = t.maxItems ∧
        StoreWF (ks.foldl DedupStore.add t) := by
    intro ks
    induction ks with
    | nil => intro t h1 _ _ _; simpa using h1
    | cons a rest ih =>
      intro t hWFt hndt hfresht hcapt
      have ha : a ∉ t.dset := hfresht a (List.mem_cons_self a rest)
      have hfits : (t.items ++ [a]).length ≤ t.maxItems := by
        simp only [List.length_append, List.length_singleton]
        simp only [List.length_cons] at hcapt; omega
      have hins : pysetInsert a t.dset = a :: t.dset := by
        unfold pysetInsert; rw [if_neg ha]
      have hstep_items : (t.add a).items = t.items ++ [a] := by
        rw [(t.add_fresh a ha).1]
        have h0 : (t.items ++ [a]).length - t.maxItems = 0 := by omega
        rw [h0, List.drop_zero]
      have hstep_dset : (t.add a).dset = a :: t.dset := by
        rw [(t.add_fresh a ha).2, evictLoop_eq_self _ _ _ hfits]
      have hWF1 : StoreWF (t.add a) := t.add_WF a hWFt
      have hnd1 : rest.Nodup := (List.nodup_cons.mp hndt).2
      have hfresh1 : ∀ k ∈ rest, k ∉ (t.add a).dset := by
        intro k hk
        rw [hstep_dset]
        simp only [List.mem_cons, not_or]
        exact ⟨fun he => (List.nodup_cons.mp hndt).1 (he ▸ hk),
          hfresht k (List.mem_cons_of_mem a hk)⟩
      have hcap1 : (t.add a).items.length + rest.length ≤ (t.add a).maxItems := by
        rw [hstep_items, t.add_maxItems]
        simp only [List.length_append, List.length_singleton]
        simp only [List.length_cons] at hcapt; omega
      obtain ⟨hi, hd, hm, hw⟩ := ih (t.add a) hWF1 hnd1 hfresh1 hcap1
      refine ⟨?_, ?_, ?_, hw⟩
      · rw [List.foldl_cons, hi, hstep_items, List.append_assoc]
        rfl
      · rw [List.foldl_cons, hd, hstep_dset, List.reverse_cons, List.append_assoc]
        rfl
      · rw [List.foldl_cons, hm, t.add_maxItems]
  obtain ⟨hi, hd, hm, hw⟩ := main keys s hWF hnd hfresh hcap
  unfold reserveKeys
  refine ⟨by simpa using hi, by simpa using hd, by simpa using hm, ?_⟩
  obtain ⟨w1, w2, w3⟩ := hw
  exact ⟨by simpa using w1, by simpa using w2, by simpa using w3⟩

/-- Folding `remove` over a key list filters both views by "not one of
the keys" (well-formedness makes the absent-key no-op a filter too). -/
theorem foldl_remove_char (keys : List String) (t : DedupStore) (hWF : StoreWF t) :
    (keys.foldl DedupStore.remove t).items
        = t.items.filter (fun x => decide (x ∉ keys)) ∧
      (keys.foldl DedupStore.remove t).dset
        = t.dset.filter (fun x => decide (x ∉ keys)) := by
  induction keys generalizing t with
  | nil =>
    simp
  | cons a rest ih =>
    obtain ⟨hi, hd⟩ := t.remove_char a hWF
    obtain ⟨ri, rd⟩ := ih (t.remove a) (t.remove_WF a hWF)
    have hcomb : ∀ (l : List String),
        ((l.filter (· != a)).filter (fun x => decide (x ∉ rest)))
          = l.filter (fun x => decide (x ∉ a :: rest)) := by
      intro l
      rw [List.filter_filter]
      apply List.filter_congr
      intro x _
      rw [Bool.eq_iff_iff]
      simp only [Bool.and_eq_true, decide_eq_true_eq, bne_iff_ne, ne_eq,
        List.mem_cons, not_or]
      tauto
    constructor
    · rw [List.foldl_cons, ri, hi, hcomb]
    · rw [List.foldl_cons, rd, hd, hcomb]

/-! ## Lemmas for the interleaving model -/

/-- Flipping a pending task's program counter changes the passed-gate
count by one exactly when the new state is `passedGate`. -/
theorem countPassed_set (l : List TaskPC) (i : Nat) (v : TaskPC)
    (h : l.get? i = some TaskPC.pending) :
    countPassed (l.set i v) =
      countPassed l + (if v = TaskPC.passedGate then 1 else 0) := by
  induction l generalizing i with
  | nil => simp at h
  | cons a t ih =>
    cases i with
    | zero =>
      simp only [List.get?_cons_zero, Option.some_inj] at h
      subst h
      unfold countPassed
      cases v <;> simp [List.countP_cons]
    | succ j =>
      simp only [List.get?_cons_succ] at h
      unfold countPassed
      simp only [List.set_cons_succ, List.countP_cons]
      have := ih j h
      unfold countPassed at this
      omega

@[simp] theorem countPassed_replicate (n : Nat) :
    countPassed (List.replicate n TaskPC.pending) = 0 := by
  unfold countPassed
  induction n with
  | zero => rfl
  | succ k ih => simp [List.replicate_succ, List.countP_cons, ih]

/-- Invariant of the race: at most one task has passed the gate, the
store is untouched while none has, and equals the single flushed
reservation as soon as one has. -/
def RaceInv (s₀ : DedupStore) (k : String) (c : RaceConfig) : Prop :=
  countPassed c.tasks ≤ 1 ∧
    (countPassed c.tasks = 0 → c.store = s₀) ∧
    (1 ≤ countPassed c.tasks → c.store = (s₀.add k).flush)

/-- One scheduler step preserves the race invariant (this is where the
atomic guarded section matters: a reservation is visible to every later
gate). -/
theorem raceStep_inv (s₀ : DedupStore) (k : String) (c : RaceConfig) (i : Nat)
    (hWF : StoreWF s₀) (hmax : 1 ≤ s₀.maxItems) (hInv : RaceInv s₀ k c) :
    RaceInv s₀ k (raceStep k c i) := by
  obtain ⟨h1, h2, h3⟩ := hInv
  unfold raceStep
  cases hget : c.tasks.get? i with
  | none => exact ⟨h1, h2, h3⟩
  | some pc =>
    cases pc with
    | pending =>
      by_cases hc : c.store.contains k = true
      · rw [if_pos hc]
        have hcnt : countPassed (c.tasks.set i TaskPC.dupSkipped)
            = countPassed c.tasks := by
          rw [countPassed_set c.tasks i TaskPC.dupSkipped hget]; simp
        refine ⟨?_, ?_, ?_⟩
        · rw [hcnt] at *; exact h1
        · rw [hcnt] at *; exact h2
        · rw [hcnt] at *; exact h3
      · rw [if_neg hc]
        have hzero : countPassed c.tasks = 0 := by
          rcases Nat.eq_zero_or_pos (countPassed c.tasks) with hz | hp
          · exact hz
          · exfalso
            have hs := h3 hp
            rw [hs] at hc
            exact hc (contains_flush_add_self s₀ k hWF hmax)
        have hstore := h2 hzero
        have hcnt : countPassed (c.tasks.set i TaskPC.passedGate) = 1 := by
          rw [countPassed_set c.tasks i TaskPC.passedGate hget, hzero]; simp
        refine ⟨?_, ?_, ?_⟩
        · rw [hcnt]
        · rw [hcnt]
          intro hcontra
          exact absurd hcontra one_ne_zero
        · intro _
          show (c.store.add k).flush = (s₀.add k).flush
          rw [hstore]
    | passedGate => exact ⟨h1, h2, h3⟩
    | dupSkipped => exact ⟨h1, h2, h3⟩

/-- A whole schedule preserves the race invariant. -/
theorem runRace_inv (s₀ : DedupStore) (k : String) (c : RaceConfig)
    (sched : List Nat) (hWF : StoreWF s₀) (hmax : 1 ≤ s₀.maxItems)
    (hInv : RaceInv s₀ k c) : RaceInv s₀ k (runRace k c sched) := by
  induction sched generalizing c with
  | nil => exact hInv
  | cons i rest ih =>
    exact ih (raceStep k c i) (raceStep_inv s₀ k c i hWF hmax hInv)

/-! ## Lemmas about load-on-construction -/

/-- The load fold appends exactly the non-blank values, in order. -/
theorem loadFold_items (vals : List String) (st : DedupStore)
    (h : ∀ v ∈ vals, v ≠ "") :
    (vals.foldl loadStep st).items = st.items ++ vals := by
  induction vals generalizing st with
  | nil => simp
  | cons v rest ih =>
    have hv : v ≠ "" := h v (List.mem_cons_self v rest)
    rw [List.foldl_cons]
    rw [ih (loadStep st v) (fun w hw => h w (List.mem_cons_of_mem v hw))]
    unfold loadStep
    rw [if_neg hv]
    simp [List.append_assoc]

/-- The load fold grows the sequence by at most one entry per value. -/
theorem loadFold_length (vals : List String) (st : DedupStore) :
    (vals.foldl loadStep st).items.length ≤ st.items.length + vals.length := by
  induction vals generalizing st with
  | nil => simp
  | cons v rest ih =>
    rw [List.foldl_cons]
    have hstep : (loadStep st v).items.length ≤ st.items.length + 1 := by
      unfold loadStep
      split
      · omega
      · simp
    have hrest := ih (loadStep st v)
    simp only [List.length_cons]
    omega

/-- The load fold never changes the capacity. -/
theorem loadFold_maxItems (vals : List String) (st : DedupStore) :
    (vals.foldl loadStep st).maxItems = st.maxItems := by
  induction vals generalizing st with
  | nil => rfl
  | cons v rest ih =>
    rw [List.foldl_cons, ih]
    unfold loadStep
    split <;> rfl

/-- The load fold keeps the store well-formed when the incoming non-blank
values are distinct and fresh. -/
theorem loadFold_WF (vals : List String) (st : DedupStore)
    (hWF : StoreWF st) (hnd : vals.Nodup) (hfresh : ∀ v ∈ vals, v ∉ st.items) :
    StoreWF (vals.foldl loadStep st) := by
  induction vals generalizing st with
  | nil => exact hWF
  | cons v rest ih =>
    rw [List.foldl_cons]
    by_cases hv : v = ""
    · have hstep : loadStep st v = st := by unfold loadStep; rw [if_pos hv]
      rw [hstep]
      exact ih st hWF (List.nodup_cons.mp hnd).2
        (fun w hw => hfresh w (List.mem_cons_of_mem v hw))
    · have hvd : v ∉ st.dset := fun hx => hfresh v (List.mem_cons_self v rest) (hWF.1 v hx)
      have hins : pysetInsert v st.dset = v :: st.dset := by
        unfold pysetInsert; rw [if_neg hvd]
      have hstep : loadStep st v
          = { st with items := st.items ++ [v], dset := v :: st.dset } := by
        unfold loadStep; rw [if_neg hv, hins]
      rw [hstep]
      obtain ⟨h1, h2, h3⟩ := hWF
      have hvi : v ∉ st.items := hfresh v (List.mem_cons_self v rest)
      refine ih _ ⟨?_, ?_, ?_⟩ (List.nodup_cons.mp hnd).2 ?_
      · intro x hx
        rcases List.mem_cons.mp hx with he | hx
        · subst he
          exact List.mem_append_right _ (List.mem_singleton_self x)
        · exact List.mem_append_left _ (h1 x hx)
      · intro x hx
        rcases List.mem_append.mp hx with hx | hx
        · exact List.mem_cons_of_mem v (h2 x hx)
        · rw [List.mem_singleton.mp hx]; exact List.mem_cons_self v st.dset
      · rw [List.nodup_append]
        exact ⟨h3, List.nodup_singleton v, by
          intro x hx
          simp only [List.mem_singleton]
          intro he; exact hvi (he ▸ hx)⟩
      · intro w hw
        simp only [List.mem_append, List.mem_singleton, not_or]
        exact ⟨fun hx => hfresh w (List.mem_cons_of_mem v hw) hx,
          fun he => (List.nodup_cons.mp hnd).1 (he ▸ hw)⟩

/-- Folding fresh distinct keys into a store of capacity `m` built from
an absent file leaves exactly the last `m` keys, with set and sequence in
agreement. -/
theorem foldl_add_fresh_char (m : Nat) (ks : List String) (hnd : ks.Nodup) :
    (ks.foldl DedupStore.add (loadStore none m)).items = ks.drop (ks.length - m) ∧
      (∀ x, x ∈ (ks.foldl DedupStore.add (loadStore none m)).dset ↔
        x ∈ (ks.foldl DedupStore.add (loadStore none m)).items) ∧
      (ks.foldl DedupStore.add (loadStore none m)).items.Nodup ∧
      (ks.foldl DedupStore.add (loadStore none m)).maxItems = m := by
  induction ks using List.reverseRecOn with
  | nil => simp [loadStore]
  | append_singleton ks k ih =>
    have hndk : ks.Nodup := (List.nodup_append.mp hnd).1
    have hkk : k ∉ ks := by
      have hdisj := (List.nodup_append.mp hnd).2.2
      intro hx
      exact hdisj hx (List.mem_singleton_self k)
    obtain ⟨hi, ha, hn, hm⟩ := ih hndk
    rw [List.foldl_append, List.foldl_cons, List.foldl_nil]
    set S := ks.foldl DedupStore.add (loadStore none m) with hS
    have hkd : k ∉ S.dset := by
      intro hx
      have hxi := (ha k).mp hx
      rw [hi] at hxi
      exact hkk (List.mem_of_mem_drop hxi)
    have hitems1 : S.items ++ [k] = (ks ++ [k]).drop (ks.length - m) := by
      rw [hi, List.drop_append_of_le_length (by omega)]
    obtain ⟨hfi, hfd⟩ := S.add_fresh k hkd
    have hagree1 : ∀ x, x ∈ k :: S.dset ↔ x ∈ S.items ++ [k] := by
      intro x
      simp only [List.mem_cons, List.mem_append, List.mem_singleton,
        List.not_mem_nil, or_false]
      constructor
      · rintro (he | hx)
        · exact Or.inr he
        · exact Or.inl ((ha x).mp hx)
      · rintro (hx | he)
        · exact Or.inr ((ha x).mpr hx)
        · exact Or.inl he
    have hnd1 : (S.items ++ [k]).Nodup := by
      rw [List.nodup_append]
      refine ⟨hn, List.nodup_singleton k, ?_⟩
      intro x hx
      simp only [List.mem_singleton]
      intro he
      subst he
      exact hkd ((ha x).mpr hx)
    obtain ⟨hae, hne⟩ := evictLoop_agree S.maxItems (S.items ++ [k]) (k :: S.dset)
      hagree1 hnd1
    have hiev : (S.add k).items
        = (S.items ++ [k]).drop ((S.items ++ [k]).length - S.maxItems) := hfi
    have hiev2 : (S.add k).items
        = (evictLoop S.maxItems (S.items ++ [k]) (k :: S.dset)).1 := by
      rw [hfi, evictLoop_items]
    refine ⟨?_, ?_, ?_, ?_⟩
    · rw [hiev, hitems1, List.drop_drop, hm]
      congr 1
      rw [List.length_drop]
      simp only [List.length_append, List.length_singleton]
      omega
    · intro x
      rw [hiev2, (S.add_fresh k hkd).2]
      exact hae x
    · rw [hiev2]; exact hne
    · rw [S.add_maxItems, hm]

/-! ## Lemmas for backfill ordering -/

/-- The collection loop selects a sublist of the history (in order). -/
theorem collectRecent_sublist (since : Int) (l : List HistMsg) :
    List.Sublist (collectRecent since l) l := by
  induction l with
  | nil => simp [collectRecent]
  | cons m rest ih =>
    cases hx : m.date with
    | none =>
      have he : collectRecent since (m :: rest) = collectRecent since rest := by
        simp only [collectRecent, hx]
      rw [he]; exact ih.cons m
    | some d =>
      have he : collectRecent since (m :: rest)
          = if d < since then [] else m :: collectRecent since rest := by
        simp only [collectRecent, hx]
      rw [he]
      by_cases h : d < since
      · rw [if_pos h]; exact (List.nil_sublist rest).cons m
      · rw [if_neg h]; exact ih.cons₂ m

/-- Every collected message is dated and inside the lookback window. -/
theorem collectRecent_window (since : Int) (l : List HistMsg) :
    ∀ m ∈ collectRecent since l, ∀ d, m.date = some d → since ≤ d := by
  induction l with
  | nil => intro m hm; simp [collectRecent] at hm
  | cons x rest ih =>
    intro m hm d hd
    cases hx : x.date with
    | none =>
      have he : collectRecent since (x :: rest) = collectRecent since rest := by
        simp only [collectRecent, hx]
      rw [he] at hm
      exact ih m hm d hd
    | some dx =>
      have he : collectRecent since (x :: rest)
          = if dx < since then [] else x :: collectRecent since rest := by
        simp only [collectRecent, hx]
      rw [he] at hm
      by_cases h : dx < since
      · rw [if_pos h] at hm; simp at hm
      · rw [if_neg h] at hm
        rcases List.mem_cons.mp hm with he2 | hm
        · subst he2
          rw [hx, Option.some_inj] at hd
          omega
        · exact ih m hm d hd

/-! ## Claim C1 -/

/-- Claim C1, counterexample to the claim as stated: with a store of
capacity `maxItems = 0` (the `DEDUP_MAX_ITEMS` setting is an unvalidated
integer), a reserved key is evicted by `add` immediately, so two
interleaved items with the same fingerprint BOTH pass the duplicate gate
and reach a publish attempt. -/
theorem claim1_counterexample :
    countPassed (runRace "a"
        ⟨loadStore none 0, [TaskPC.pending, TaskPC.pending]⟩ [0, 1]).tasks = 2 ∧
      ¬ countPassed (runRace "a"
        ⟨loadStore none 0, [TaskPC.pending, TaskPC.pending]⟩ [0, 1]).tasks ≤ 1 := by
  decide

/-- Claim C1 (amended: the store must be well-formed and have capacity
`maxItems ≥ 1`, as every store the program builds with a positive
configured capacity is): for every schedule interleaving `n` items that
resolved to the same fingerprint key, at most one item passes the
duplicate gate and reaches a publish attempt; the others take the
duplicate branch, and the store is mutated at most by the single
reservation (if nobody passed, it is untouched). -/
theorem claim1_race_at_most_once (k : String) (s₀ : DedupStore) (n : Nat)
    (sched : List Nat) (hWF : StoreWF s₀) (hmax : 1 ≤ s₀.maxItems) :
    countPassed (runRace k ⟨s₀, List.replicate n TaskPC.pending⟩ sched).tasks ≤ 1 ∧
      ((runRace k ⟨s₀, List.replicate n TaskPC.pending⟩ sched).store = s₀ ∨
        (runRace k ⟨s₀, List.replicate n TaskPC.pending⟩ sched).store
          = (s₀.add k).flush) ∧
      (countPassed (runRace k ⟨s₀, List.replicate n TaskPC.pending⟩ sched).tasks = 0 →
        (runRace k ⟨s₀, List.replicate n TaskPC.pending⟩ sched).store = s₀) := by
  have hInv0 : RaceInv s₀ k ⟨s₀, List.replicate n TaskPC.pending⟩ := by
    refine ⟨by simp, fun _ => rfl, fun h => ?_⟩
    simp only [countPassed_replicate] at h
    omega
  obtain ⟨h1, h2, h3⟩ :=
    runRace_inv s₀ k ⟨s₀, List.replicate n TaskPC.pending⟩ sched hWF hmax hInv0
  refine ⟨h1, ?_, h2⟩
  rcases Nat.eq_zero_or_pos
      (countPassed (runRace k ⟨s₀, List.replicate n TaskPC.pending⟩ sched).tasks)
    with hz | hp
  · exact Or.inl (h2 hz)
  · exact Or.inr (h3 hp)

/-- Claim C1 witness: the amended theorem applied at a concrete
well-formed store of capacity 5 with three racing tasks. -/
theorem claim1_witness :
    countPassed (runRace "a"
        ⟨loadStore none 5, List.replicate 3 TaskPC.pending⟩ [0, 1, 2, 0]).tasks ≤ 1 ∧
      ((runRace "a" ⟨loadStore none 5, List.replicate 3 TaskPC.pending⟩ [0, 1, 2, 0]).store
          = loadStore none 5 ∨
        (runRace "a" ⟨loadStore none 5, List.replicate 3 TaskPC.pending⟩ [0, 1, 2, 0]).store
          = ((loadStore none 5).add "a").flush) ∧
      (countPassed (runRace "a"
          ⟨loadStore none 5, List.replicate 3 TaskPC.pending⟩ [0, 1, 2, 0]).tasks = 0 →
        (runRace "a" ⟨loadStore none 5, List.replicate 3 TaskPC.pending⟩ [0, 1, 2, 0]).store
          = loadStore none 5) :=
  claim1_race_at_most_once "a" (loadStore none 5) 3 [0, 1, 2, 0] (by decide) (by decide)

/-! ## Claim C2 -/

/-- Claim C2, counterexample to the claim as stated: a store of capacity
1 holding `"x"` processes an interesting message whose reservation evicts
`"x"`; when the publish raises, rollback removes the reserved key but
cannot restore the evicted `"x"`, so the store does NOT return to its
pre-reservation contents. -/
theorem claim2_counterexample :
    (processMessage ⟨false, false⟩ (OfferFilter.create [] [] 0) id id false
        ⟨"t", false, false⟩ ⟨1, ["x"], ["x"], 0, none⟩).outcome
      = ProcOutcome.publishFailed ∧
    (processMessage ⟨false, false⟩ (OfferFilter.create [] [] 0) id id false
        ⟨"t", false, false⟩ ⟨1, ["x"], ["x"], 0, none⟩).store.items = [] ∧
    (processMessage ⟨false, false⟩ (OfferFilter.create [] [] 0) id id false
        ⟨"t", false, false⟩ ⟨1, ["x"], ["x"], 0, none⟩).store.items
      ≠ (⟨1, ["x"], ["x"], 0, none⟩ : DedupStore).items := by
  decide

/-- Claim C2 (amended): rolling back a reservation always leaves every
reserved key absent (`contains = false`); and when the reservation caused
no eviction (pre-reservation size plus number of reserved keys fits into
`maxItems`, keys distinct and fresh, store well-formed) the rollback
restores the in-memory sequence and set exactly to their pre-reservation
contents.  Without the no-eviction condition exact restoration fails
(see the counterexample). -/
theorem claim2_rollback_restores :
    (∀ (s : DedupStore) (keys : List String) (k : String), k ∈ keys →
      (rollbackKeys (reserveKeys s keys) keys).contains k = false) ∧
    (∀ (s : DedupStore) (keys : List String), StoreWF s → keys.Nodup →
      (∀ k ∈ keys, s.contains k = false) →
      s.items.length + keys.length ≤ s.maxItems →
      (rollbackKeys (reserveKeys s keys) keys).items = s.items ∧
        (rollbackKeys (reserveKeys s keys) keys).dset = s.dset) := by
  constructor
  · intro s keys k hk
    unfold rollbackKeys
    have := foldl_remove_contains keys (reserveKeys s keys) k hk
    unfold DedupStore.contains at this ⊢
    simpa using this
  · intro s keys hWF hnd hfresh hcap
    have hfresh' : ∀ k ∈ keys, k ∉ s.dset := by
      intro k hk
      have := hfresh k hk
      unfold DedupStore.contains at this
      simpa using this
    obtain ⟨hi, hd, _, hw⟩ := reserve_char s keys hWF hnd hfresh' hcap
    obtain ⟨ri, rd⟩ := foldl_remove_char keys (reserveKeys s keys) hw
    have hsfilter : s.items.filter (fun x => decide (x ∉ keys)) = s.items := by
      apply List.filter_eq_self.mpr
      intro x hx
      simp only [decide_eq_true_eq]
      intro hxk
      exact hfresh' x hxk (hWF.2.1 x hx)
    have hdfilter : s.dset.filter (fun x => decide (x ∉ keys)) = s.dset := by
      apply List.filter_eq_self.mpr
      intro x hx
      simp only [decide_eq_true_eq]
      intro hxk
      exact hfresh' x hxk hx
    have hknil : keys.filter (fun x => decide (x ∉ keys)) = [] := by
      apply List.filter_eq_nil_iff.mpr
      intro x hx
      simp only [decide_eq_true_eq, not_not]
      exact hx
    have hkrnil : keys.reverse.filter (fun x => decide (x ∉ keys)) = [] := by
      apply List.filter_eq_nil_iff.mpr
      intro x hx
      simp only [decide_eq_true_eq, not_not]
      exact List.mem_reverse.mp hx
    constructor
    · unfold rollbackKeys
      rw [DedupStore.flush_items, ri, hi, List.filter_append, hsfilter, hknil,
        List.append_nil]
    · unfold rollbackKeys
      rw [DedupStore.flush_dset, rd, hd, List.filter_append, hkrnil, hdfilter,
        List.nil_append]

/-- Claim C2 witness: the amended theorem applied at a fresh store of
capacity 5 with reserved keys `["a", "b"]`. -/
theorem claim2_witness :
    (rollbackKeys (reserveKeys (loadStore none 5) ["a", "b"]) ["a", "b"]).items
        = (loadStore none 5).items ∧
      (rollbackKeys (reserveKeys (loadStore none 5) ["a", "b"]) ["a", "b"]).dset
        = (loadStore none 5).dset ∧
      (rollbackKeys (reserveKeys (loadStore none 5) ["a", "b"]) ["a", "b"]).contains "a"
        = false ∧
      (rollbackKeys (reserveKeys (loadStore none 5) ["a", "b"]) ["a", "b"]).contains "b"
        = false :=
  ⟨(claim2_rollback_restores.2 (loadStore none 5) ["a", "b"] (by decide) (by decide)
      (by decide) (by decide)).1,
   (claim2_rollback_restores.2 (loadStore none 5) ["a", "b"] (by decide) (by decide)
      (by decide) (by decide)).2,
   claim2_rollback_restores.1 (loadStore none 5) ["a", "b"] "a" (by decide),
   claim2_rollback_restores.1 (loadStore none 5) ["a", "b"] "b" (by decide)⟩

/-! ## Claim C3 -/

/-- Claim C3, counterexample to the claim as stated: with the rewrite
gateway enabled, `process_message` rewrites FIRST (app.py line 156-157)
and only then fingerprints (line 158), so the key reserved in the store
is the fingerprint of the rewritten text, not of the original received
text. -/
theorem claim3_counterexample :
    (processMessage ⟨false, true⟩ (OfferFilter.create [] [] 0)
        (fun _ => "rewritten") id true ⟨"original", false, false⟩
        (loadStore none 5)).store.contains "txt:rewritten" = true ∧
    (processMessage ⟨false, true⟩ (OfferFilter.create [] [] 0)
        (fun _ => "rewritten") id true ⟨"original", false, false⟩
        (loadStore none 5)).store.contains "txt:original" = false := by
  decide

/-- Claim C3 (amended): the processing order is scoring, then the
optional rewrite, then fingerprinting, then the duplicate gate; for every
item that passes scoring with rewriting enabled and a non-empty stripped
text — and that does not crash first in the media block, i.e. it is not a
media message with a successful download, which raises `AttributeError`
at `settings.dedup_media` before any key reaches the gate — the key
presented to the duplicate gate is the fingerprint of the REWRITTEN
text. -/
theorem claim3_fingerprint_from_rewritten (st : PipeSettings) (filt : OfferFilter)
    (rewriteFn hashFn : String → String) (publishOk : Bool) (msg : InMsg)
    (store : DedupStore)
    (hInt : (filt.matchText msg.text).interesting = true)
    (hRw : st.rewriteEnabled = true)
    (hStrip : pyStrip msg.text ≠ "")
    (hNoCrash : ¬ (msg.hasMedia = true ∧ msg.downloadOk = true)) :
    (processMessage st filt rewriteFn hashFn publishOk msg store).gateKeys
      = ((DedupStore.fingerprint hashFn (rewriteFn (pyStrip msg.text))).map
          (fun f => "txt:" ++ f)).toList := by
  simp only [processMessage]
  rw [if_neg (show ¬ ((filt.matchText msg.text).interesting = false) by
    rw [hInt]; simp)]
  rw [if_pos (show st.rewriteEnabled = true ∧ pyStrip msg.text ≠ "" from ⟨hRw, hStrip⟩)]
  rw [if_neg hNoCrash]
  simp only [Option.toList_none, List.append_nil]
  split
  · next hnil =>
    rw [hnil]
    split
    · rfl
    · split
      · rfl
      · rfl
  · split
    · rfl
    · split
      · rfl
      · split
        · rfl
        · rfl

/-- Claim C3 witness: the amended theorem at a concrete item; the gate
key is the fingerprint of the rewritten text. -/
theorem claim3_witness :
    (processMessage ⟨false, true⟩ (OfferFilter.create [] [] 0)
        (fun _ => "rewritten") id true ⟨"original", false, false⟩
        (loadStore none 5)).gateKeys
      = ((DedupStore.fingerprint id ((fun _ => "rewritten") (pyStrip "original"))).map
          (fun f => "txt:" ++ f)).toList :=
  claim3_fingerprint_from_rewritten ⟨false, true⟩ (OfferFilter.create [] [] 0)
    (fun _ => "rewritten") id true ⟨"original", false, false⟩
    (loadStore none 5) (by decide) (by decide) (by decide) (by decide)

/-! ## Claim C4 -/

/-- Claim C4, counterexample to the claim as stated: with `maxItems = 0`
and a non-empty persisted file, the `lines[-0:]` load quirk leaves the
store oversized, and `add` of an already-present key returns before the
eviction loop — so after that completed `add` the size (1) still exceeds
`maxItems` (0), refuting "size never exceeds maxItems after any mutation
completes" for every store. -/
theorem claim4_counterexample :
    ((loadStore (some ["a"]) 0).add "a").maxItems = 0 ∧
      ((loadStore (some ["a"]) 0).add "a").items.length = 1 ∧
      ¬ ((loadStore (some ["a"]) 0).add "a").items.length
          ≤ ((loadStore (some ["a"]) 0).add "a").maxItems := by
  decide

/-- Claim C4 (amended: restricted to stores that are within capacity,
which every store constructed with `maxItems ≥ 1` is — the `maxItems = 0`
store loaded from a non-empty file is oversized from birth and a no-op
`add` of a present key leaves it so, see the counterexample):
(a) a store constructed with capacity `m ≥ 1` never holds more than `m`
entries; (b) any sequence of `add` operations keeps a store that is
within capacity within capacity (the eviction loop enforces the bound
unconditionally on every actual insertion); (c) inserting `m + n`
distinct keys one at a time into a fresh store of capacity `m` leaves
exactly `m` entries, the `n` earliest-inserted keys absent and all
later-inserted keys present — eviction is strictly insertion-ordered. -/
theorem claim4_bounded_and_eviction :
    (∀ (file : Option (List String)) (m : Nat), 1 ≤ m →
      (loadStore file m).items.length ≤ m) ∧
    (∀ (s : DedupStore) (keys : List String), s.items.length ≤ s.maxItems →
      (keys.foldl DedupStore.add s).items.length ≤ s.maxItems) ∧
    (∀ (m n : Nat) (keys : List String), keys.Nodup → keys.length = m + n →
      0 < n →
      (keys.foldl DedupStore.add (loadStore none m)).items.length = m ∧
        (∀ x ∈ keys.take n,
          (keys.foldl DedupStore.add (loadStore none m)).contains x = false) ∧
        (∀ x ∈ keys.drop n,
          (keys.foldl DedupStore.add (loadStore none m)).contains x = true)) := by
  refine ⟨?_, ?_, ?_⟩
  · intro file m hm
    cases file with
    | none => simp [loadStore]
    | some lines =>
      unfold loadStore
      have h1 := loadFold_length (pythonLastSlice m (lines.map pyStrip))
        ⟨m, [], [], 0, some lines⟩
      simp only [List.length_nil, Nat.zero_add] at h1
      refine le_trans h1 ?_
      unfold pythonLastSlice
      rw [if_neg (by omega)]
      rw [List.length_drop]
      omega
  · intro s keys h
    induction keys generalizing s with
    | nil => exact h
    | cons a t ih =>
      rw [List.foldl_cons]
      have h1 := s.add_length_le a h
      have h2 := ih (s.add a) (by rw [s.add_maxItems]; exact h1)
      rw [s.add_maxItems] at h2
      exact h2
  · intro m n keys hnd hlen hn
    obtain ⟨hi, ha, hnod, _⟩ := foldl_add_fresh_char m keys hnd
    have hdropn : keys.length - m = n := by omega
    rw [hdropn] at hi
    have hdisj : ∀ x ∈ keys.take n, x ∉ keys.drop n := by
      have hsplit : (keys.take n ++ keys.drop n).Nodup := by
        rw [List.take_append_drop]; exact hnd
      have := (List.nodup_append.mp hsplit).2.2
      intro x hx hxd
      exact this hx hxd
    refine ⟨?_, ?_, ?_⟩
    · rw [hi, List.length_drop, hlen]
      omega
    · intro x hx
      unfold DedupStore.contains
      simp only [decide_eq_false_iff_not]
      intro hmem
      exact hdisj x hx (hi ▸ (ha x).mp hmem)
    · intro x hx
      unfold DedupStore.contains
      simp only [decide_eq_true_eq]
      exact (ha x).mpr (hi ▸ hx)

/-- Claim C4 witness: capacity bound from a loaded file; boundedness of a
fold of adds; and the eviction scenario with `m = 2`, `n = 1` on keys
`["a", "b", "c"]` (the earliest key `"a"` is evicted, `"b"`, `"c"`
remain). -/
theorem claim4_witness :
    (loadStore (some ["p", "q", "r"]) 2).items.length ≤ 2 ∧
      (["x", "y"].foldl DedupStore.add (loadStore none 1)).items.length
        ≤ (loadStore none 1).maxItems ∧
      (["a", "b", "c"].foldl DedupStore.add (loadStore none 2)).items.length = 2 ∧
      (∀ x ∈ ["a", "b", "c"].take 1,
        (["a", "b", "c"].foldl DedupStore.add (loadStore none 2)).contains x = false) ∧
      (∀ x ∈ ["a", "b", "c"].drop 1,
        (["a", "b", "c"].foldl DedupStore.add (loadStore none 2)).contains x = true) :=
  ⟨claim4_bounded_and_eviction.1 (some ["p", "q", "r"]) 2 (by decide),
   claim4_bounded_and_eviction.2.1 (loadStore none 1) ["x", "y"] (by decide),
   (claim4_bounded_and_eviction.2.2 2 1 ["a", "b", "c"] (by decide) (by decide)
      (by decide)).1,
   (claim4_bounded_and_eviction.2.2 2 1 ["a", "b", "c"] (by decide) (by decide)
      (by decide)).2.1,
   (claim4_bounded_and_eviction.2.2 2 1 ["a", "b", "c"] (by decide) (by decide)
      (by decide)).2.2⟩

/-! ## Claim C5 -/

/-- Claim C5, evaluation at the failing inputs: the first price branch of
`OfferFilter.match` tests `min_price >= 500` (not `<=`), so a text whose
minimum extracted price is 400 (lower tier) scores +2 while one whose
minimum is 600 scores only +1 — the price-score contribution DECREASES
across the first tier boundary instead of ascending, the 600 price is
labelled `low_price`, and the `+3`/`+4` branches are unreachable. -/
theorem claim5_price_band_inverted :
    findPrices "400 ₽" = [400] ∧
      findPrices "600 ₽" = [600] ∧
      ((OfferFilter.create [] [] 5).matchText "400 ₽").score = 2 ∧
      ((OfferFilter.create [] [] 5).matchText "600 ₽").score = 1 ∧
      ((OfferFilter.create [] [] 5).matchText "600 ₽").reasons = ["low_price:600"] := by
  decide

/-! ## Claim C6 -/

/-- Claim C6, evaluation at the failing input: for EVERY interesting
media message whose download returns a file path, `process_message`
raises `AttributeError` at the attribute access `settings.dedup_media`
(app.py line 168) — `config.py`'s `Settings` defines no `dedup_media`
field — and the access sits outside the `try/except OSError` block, so
no `img:`-prefixed media fingerprint is ever computed, the store is left
untouched, and the claimed non-fatal handling of byte-read failures is
unreachable (the crash precedes the read; `DedupStore.fingerprint_bytes`
at line 171, also undefined, is never reached).  The item proceeds
without a media fingerprint only when the download does NOT return a
path, where the whole block is skipped (remaining conjuncts). -/
theorem claim6_media_attr_crash :
    (processMessage ⟨false, false⟩ (OfferFilter.create [] [] 0) id id true
        ⟨"t", true, true⟩ (loadStore none 5)).outcome
      = ProcOutcome.mediaCrash ∧
    (processMessage ⟨false, false⟩ (OfferFilter.create [] [] 0) id id true
        ⟨"t", true, true⟩ (loadStore none 5)).store = loadStore none 5 ∧
    (processMessage ⟨false, false⟩ (OfferFilter.create [] [] 0) id id true
        ⟨"t", true, true⟩ (loadStore none 5)).gateKeys = [] ∧
    (processMessage ⟨false, false⟩ (OfferFilter.create [] [] 0) id id true
        ⟨"t", true, false⟩ (loadStore none 5)).outcome
      = ProcOutcome.published ∧
    (processMessage ⟨false, false⟩ (OfferFilter.create [] [] 0) id id true
        ⟨"t", true, false⟩ (loadStore none 5)).gateKeys = ["txt:t"] := by
  decide

/-! ## Claim C7 -/

/-- Claim C7, counterexample to the claim as stated: with the configured
`minScore = 0` (`MIN_SCORE` is an unvalidated integer) and empty text,
the score (0) satisfies `score ≥ minScore`, yet `isInteresting` is
`false` — the empty-text short-circuit sets it by another rule, so the
biconditional fails for this configured `minScore`. -/
theorem claim7_counterexample :
    ((OfferFilter.create [] [] 0).matchText "").interesting = false ∧
      (((OfferFilter.create [] [] 0).matchText "").score : Int)
        ≥ (OfferFilter.create [] [] 0).minScore := by
  decide

/-- Claim C7 (amended): the empty-text and exclude-keyword paths return
`isInteresting = false` with score 0 unconditionally; on every other
path `isInteresting` is exactly `score ≥ minScore`.  (Consequently the
claimed biconditional holds whenever `minScore ≥ 1`, and fails only on
the two short-circuit paths with `minScore ≤ 0`.) -/
theorem claim7_interesting_iff (f : OfferFilter) (text : String) :
    (text = "" → f.matchText text = ⟨false, 0, ["empty_text"]⟩) ∧
      (text ≠ "" →
        f.excludeKeywords.any (fun k => strHasSub (pyLowerStr text) k) = true →
        f.matchText text = ⟨false, 0, ["exclude_keyword"]⟩) ∧
      (text ≠ "" →
        f.excludeKeywords.any (fun k => strHasSub (pyLowerStr text) k) = false →
        ((f.matchText text).interesting = true ↔
          ((f.matchText text).score : Int) ≥ f.minScore)) := by
  refine ⟨?_, ?_, ?_⟩
  · intro he
    unfold OfferFilter.matchText
    rw [if_pos he]
  · intro hne hexc
    unfold OfferFilter.matchText
    rw [if_neg hne, if_pos hexc]
  · intro hne hexc
    unfold OfferFilter.matchText
    rw [if_neg hne, if_neg (by rw [hexc]; simp)]
    simp [decide_eq_true_iff]

/-- Claim C7 witness: the amended theorem at `minScore = 1` and the text
`"x"`, where the biconditional holds. -/
theorem claim7_witness :
    ((OfferFilter.create [] [] 1).matchText "x").interesting = true ↔
      (((OfferFilter.create [] [] 1).matchText "x").score : Int)
        ≥ (OfferFilter.create [] [] 1).minScore :=
  (claim7_interesting_iff (OfferFilter.create [] [] 1) "x").2.2 (by decide) (by decide)

/-! ## Claim C8 -/

/-- Claim C8, counterexample to the claim as stated: with
`maxItems = 0`, Python's `lines[-max_items:]` is `lines[-0:]`, i.e. the
WHOLE file, so instead of retaining the most recent 0 entries the store
loads everything — a 1-entry file yields a 1-entry store of capacity 0. -/
theorem claim8_counterexample :
    (loadStore (some ["a"]) 0).maxItems = 0 ∧
      (loadStore (some ["a"]) 0).items = ["a"] ∧
      (loadStore (some ["a"]) 0).items ≠ [] := by
  decide

/-- Claim C8 (amended: for capacity `maxItems ≥ 1`, and for a persisted
file whose lines are its entries, i.e. strip to non-blank values): load
retains exactly the most recent `maxItems` stripped entries in their
persisted oldest-first order, and a missing file yields an empty store
rather than an error.  (At `maxItems = 0` the `lines[-0:]` slice retains
the whole file instead — see the counterexample.) -/
theorem claim8_load_retains_last :
    (∀ m : Nat, (loadStore none m).items = [] ∧ (loadStore none m).dset = []) ∧
      (∀ (lines : List String) (m : Nat), 1 ≤ m →
        (∀ l ∈ lines, pyStrip l ≠ "") →
        (loadStore (some lines) m).items
          = (lines.map pyStrip).drop ((lines.map pyStrip).length - m)) := by
  constructor
  · intro m
    exact ⟨rfl, rfl⟩
  · intro lines m hm hnb
    unfold loadStore
    have hslice : pythonLastSlice m (lines.map pyStrip)
        = (lines.map pyStrip).drop ((lines.map pyStrip).length - m) := by
      unfold pythonLastSlice
      rw [if_neg (by omega)]
    have hvals : ∀ v ∈ pythonLastSlice m (lines.map pyStrip), v ≠ "" := by
      intro v hv
      rw [hslice] at hv
      have hv2 : v ∈ lines.map pyStrip := List.mem_of_mem_drop hv
      obtain ⟨l, hl, he⟩ := List.mem_map.mp hv2
      exact he ▸ hnb l hl
    rw [loadFold_items (pythonLastSlice m (lines.map pyStrip))
      ⟨m, [], [], 0, some lines⟩ hvals, hslice]
    rfl

/-- Claim C8 witness: a 3-entry file with capacity 2 retains exactly the
last 2 entries in order, and a missing file loads empty. -/
theorem claim8_witness :
    (loadStore none 2).items = [] ∧
      (loadStore none 2).dset = [] ∧
      (loadStore (some ["x", "y", "z"]) 2).items
        = ((["x", "y", "z"].map pyStrip).drop ((["x", "y", "z"].map pyStrip).length - 2)) :=
  ⟨(claim8_load_retains_last.1 2).1, (claim8_load_retains_last.1 2).2,
   claim8_load_retains_last.2 ["x", "y", "z"] 2 (by decide) (by decide)⟩

/-! ## Claim C9 -/

/-- Claim C9, counterexample to the claim as stated: `_load` appends
every non-blank line without a membership check, so a persisted file with
a duplicated entry yields an in-memory sequence with a duplicate key,
violating the no-duplicates half of the invariant right after
construction. -/
theorem claim9_counterexample :
    (loadStore (some ["a", "a"]) 5).items = ["a", "a"] ∧
      ¬ (loadStore (some ["a", "a"]) 5).items.Nodup ∧
      ¬ StoreWF (loadStore (some ["a", "a"]) 5) := by
  refine ⟨by decide, by decide, ?_⟩
  intro h
  exact absurd h.2.2 (by decide)

/-- Claim C9 (amended: construction from a missing file, or from a file
with pairwise-distinct stripped lines — which every file written by
`flush` from an invariant-satisfying store is): the set and the sequence
agree exactly and the sequence has no duplicates, and both `add` and
`remove` preserve this invariant, so it holds in every reachable state. -/
theorem claim9_store_invariant :
    (∀ m : Nat, StoreWF (loadStore none m)) ∧
      (∀ (lines : List String) (m : Nat), (lines.map pyStrip).Nodup →
        StoreWF (loadStore (some lines) m)) ∧
      (∀ (s : DedupStore) (k : String), StoreWF s → StoreWF (s.add k)) ∧
      (∀ (s : DedupStore) (k : String), StoreWF s → StoreWF (s.remove k)) := by
  refine ⟨?_, ?_, ?_, ?_⟩
  · intro m
    exact ⟨by simp [loadStore], by simp [loadStore], by simp [loadStore]⟩
  · intro lines m hnd
    unfold loadStore
    apply loadFold_WF
    · exact ⟨by simp, by simp, by simp⟩
    · unfold pythonLastSlice
      split
      · exact hnd
      · exact hnd.sublist (List.drop_sublist _ _)
    · intro v _
      simp
  · intro s k h
    exact s.add_WF k h
  · intro s k h
    exact s.remove_WF k h

/-- Claim C9 witness: the amended theorem at a concrete duplicate-free
file, plus invariant preservation across one `add` and one `remove`. -/
theorem claim9_witness :
    StoreWF (loadStore (some ["a", "b"]) 5) ∧
      StoreWF ((loadStore (some ["a", "b"]) 5).add "c") ∧
      StoreWF ((loadStore (some ["a", "b"]) 5).remove "a") :=
  ⟨claim9_store_invariant.2.1 ["a", "b"] 5 (by decide),
   claim9_store_invariant.2.2.1 (loadStore (some ["a", "b"]) 5) "c"
     (claim9_store_invariant.2.1 ["a", "b"] 5 (by decide)),
   claim9_store_invariant.2.2.2 (loadStore (some ["a", "b"]) 5) "a"
     (claim9_store_invariant.2.1 ["a", "b"] 5 (by decide))⟩

/-! ## Claim C10 -/

/-- Claim C10: `process_backfill` collects the recent messages from the
newest-first history (skipping undated entries, stopping at the first one
older than the lookback window) and dispatches `reversed(recent)`, so if
the transport yields history newest-first, the dispatched items are in
chronological oldest-first order, and all lie inside the window. -/
theorem claim10_backfill_chronological (since : Int) (history : List HistMsg)
    (hsorted : (history.filterMap HistMsg.date).Pairwise (fun a b => b ≤ a)) :
    ((backfillDispatch since history).filterMap HistMsg.date).Pairwise
        (fun a b => a ≤ b) ∧
      (∀ m ∈ backfillDispatch since history, ∀ d, m.date = some d → since ≤ d) := by
  constructor
  · unfold backfillDispatch
    rw [List.filterMap_reverse]
    rw [List.pairwise_reverse]
    exact hsorted.sublist ((collectRecent_sublist since history).filterMap
      HistMsg.date)
  · intro m hm d hd
    unfold backfillDispatch at hm
    exact collectRecent_window since history m (List.mem_reverse.mp hm) d hd

/-- Claim C10 witness: a concrete newest-first history (with one undated
entry and one message outside the window) dispatches oldest-first. -/
theorem claim10_witness :
    ((backfillDispatch 0 [⟨1, some 5⟩, ⟨2, none⟩, ⟨3, some 3⟩, ⟨4, some (-1)⟩]).filterMap
        HistMsg.date).Pairwise (fun a b => a ≤ b) ∧
      (∀ m ∈ backfillDispatch 0 [⟨1, some 5⟩, ⟨2, none⟩, ⟨3, some 3⟩, ⟨4, some (-1)⟩],
        ∀ d, m.date = some d → (0 : Int) ≤ d) :=
  claim10_backfill_chronological 0
    [⟨1, some 5⟩, ⟨2, none⟩, ⟨3, some 3⟩, ⟨4, some (-1)⟩] (by decide)
